import Mathlib

/-!
Verification of the glacier upload core of the `aws_tools` repository:
a shallow embedding of `aws_glacier_manager/encryption.py` and
`aws_glacier_manager/glacier_io.py`, plus the chunk-range validator that the
test suite exercises.  Byte strings are modelled as `List Nat` (one entry per
byte), machine integers as `Nat`/`Int`, and fallible Python code as `Option`
or `Except` valued functions.
-/

/-- `CHUNK_SIZE = 16 * 1024` from `encryption.py`. -/
def CHUNK_SIZE : Nat := 16 * 1024

/-- `nacl.secret.SecretBox.NONCE_SIZE` (24 bytes, XSalsa20). -/
def NONCE_SIZE : Nat := 24

/-- Python `int.from_bytes(b, byteorder='big')`. -/
def bytesToNat (b : List Nat) : Nat :=
  b.foldl (fun acc x => acc * 256 + x) 0

/-- Big-endian digits of `n` written into exactly `len` bytes
(the core of Python `int.to_bytes(n, length=len, byteorder='big')`). -/
def natToBytesAux : Nat → Nat → List Nat
  | _, 0 => []
  | n, len + 1 => natToBytesAux (n / 256) len ++ [n % 256]

/-- Python `int.to_bytes(n, length=len, byteorder='big')`: raises
`OverflowError` (here `none`) when `n` does not fit into `len` bytes. -/
def natToBytes (n len : Nat) : Option (List Nat) :=
  if n < 256 ^ len then some (natToBytesAux n len) else none

/-- `encryption._chunk_nonce(base, index)`:
`int.to_bytes(int.from_bytes(base, 'big') + index, length=24, byteorder='big')`. -/
def chunkNonce (base : List Nat) (index : Nat) : Option (List Nat) :=
  natToBytes (bytesToNat base + index) NONCE_SIZE

/-- `CryptoHandler.get_unenc_block_size`: fails (`ValueError`) unless the target
block size is a multiple of `CHUNK_SIZE`, otherwise
`n_chunks * (CHUNK_SIZE - 40)`. -/
def get_unenc_block_size (encBlockSize : Nat) : Option Nat :=
  if encBlockSize % CHUNK_SIZE ≠ 0 then none
  else some (encBlockSize / CHUNK_SIZE * (CHUNK_SIZE - 40))

theorem natToBytesAux_length (n len : Nat) : (natToBytesAux n len).length = len := by
  induction len generalizing n with
  | zero => rfl
  | succ len ih => simp [natToBytesAux, ih]

theorem bytesToNat_append_singleton (xs : List Nat) (b : Nat) :
    bytesToNat (xs ++ [b]) = bytesToNat xs * 256 + b := by
  simp [bytesToNat, List.foldl_append]

theorem bytesToNat_natToBytesAux (len n : Nat) (h : n < 256 ^ len) :
    bytesToNat (natToBytesAux n len) = n := by
  induction len generalizing n with
  | zero =>
    simp [pow_zero] at h
    simp [natToBytesAux, bytesToNat, h]
  | succ len ih =>
    have hdiv : n / 256 < 256 ^ len := by
      rw [Nat.div_lt_iff_lt_mul (by norm_num : 0 < 256)]
      calc n < 256 ^ (len + 1) := h
        _ = 256 ^ len * 256 := by ring
    rw [natToBytesAux, bytesToNat_append_singleton, ih _ hdiv]
    omega

theorem natToBytes_some {n len : Nat} {l : List Nat} (h : natToBytes n len = some l) :
    n < 256 ^ len ∧ l = natToBytesAux n len := by
  unfold natToBytes at h
  split at h
  · exact ⟨by assumption, (Option.some.inj h).symm⟩
  · cases h

theorem natToBytes_of_lt {n len : Nat} (h : n < 256 ^ len) :
    natToBytes n len = some (natToBytesAux n len) := by
  unfold natToBytes
  rw [if_pos h]

theorem chunkNonce_length (base : List Nat) (i : Nat) (n : List Nat)
    (h : chunkNonce base i = some n) : n.length = NONCE_SIZE := by
  have h2 : natToBytes (bytesToNat base + i) NONCE_SIZE = some n := h
  obtain ⟨-, h3⟩ := natToBytes_some h2
  rw [h3]
  exact natToBytesAux_length _ _

theorem chunkNonce_inj (base : List Nat) (i j : Nat) (n : List Nat)
    (hi : chunkNonce base i = some n) (hj : chunkNonce base j = some n) : i = j := by
  have hi2 : natToBytes (bytesToNat base + i) NONCE_SIZE = some n := hi
  have hj2 : natToBytes (bytesToNat base + j) NONCE_SIZE = some n := hj
  obtain ⟨hlti, hvi⟩ := natToBytes_some hi2
  obtain ⟨hltj, hvj⟩ := natToBytes_some hj2
  have e1 := bytesToNat_natToBytesAux NONCE_SIZE (bytesToNat base + i) hlti
  have e2 := bytesToNat_natToBytesAux NONCE_SIZE (bytesToNat base + j) hltj
  rw [← hvi] at e1
  rw [← hvj] at e2
  omega

/-- **C10** — the per-chunk nonce `_chunk_nonce(base, i)` (i) succeeds and yields a
24-byte nonce whenever `int(base) + i < 2^192`, (ii) is injective in the index
(no two indices can produce the same nonce), and (iii) fails with an overflow
error (rather than wrapping to a reused small nonce) for some 24-byte base and
index with `int(base) + i ≥ 2^192`, making encryption partial over nonce bases. -/
theorem chunkNonce_spec :
    (∀ base i, bytesToNat base + i < 2 ^ 192 →
      ∃ n, chunkNonce base i = some n ∧ n.length = 24) ∧
    (∀ base i j n, chunkNonce base i = some n → chunkNonce base j = some n → i = j) ∧
    (∃ base i, base.length = 24 ∧ 2 ^ 192 ≤ bytesToNat base + i ∧
      chunkNonce base i = none) := by
  refine ⟨?_, ?_, ?_⟩
  · intro base i h
    have hpow : (256 : Nat) ^ NONCE_SIZE = 2 ^ 192 := by
      show (256 : Nat) ^ 24 = 2 ^ 192
      norm_num
    have hlt : bytesToNat base + i < 256 ^ NONCE_SIZE := by omega
    refine ⟨natToBytesAux (bytesToNat base + i) NONCE_SIZE, natToBytes_of_lt hlt, ?_⟩
    exact natToBytesAux_length _ _
  · exact fun base i j n hi hj => chunkNonce_inj base i j n hi hj
  · refine ⟨List.replicate 24 255, 1, by simp, by decide, by decide⟩

theorem chunkNonce_spec_witness :
    ∃ n, chunkNonce (List.replicate 24 0) 5 = some n ∧ n.length = 24 :=
  chunkNonce_spec.1 (List.replicate 24 0) 5 (by decide)

/-- **C5** — `get_unenc_block_size n` fails for every `n` that is not a multiple
of `CHUNK_SIZE`, and for every multiple returns
`(n / CHUNK_SIZE) * (CHUNK_SIZE - 40)`. -/
theorem get_unenc_block_size_spec (n : Nat) :
    (n % CHUNK_SIZE = 0 →
      get_unenc_block_size n = some (n / CHUNK_SIZE * (CHUNK_SIZE - 40))) ∧
    (n % CHUNK_SIZE ≠ 0 → get_unenc_block_size n = none) := by
  constructor <;> intro h <;> simp [get_unenc_block_size, h]

theorem get_unenc_block_size_spec_witness :
    get_unenc_block_size 49152 = some (49152 / CHUNK_SIZE * (CHUNK_SIZE - 40)) ∧
    get_unenc_block_size 100 = none :=
  ⟨(get_unenc_block_size_spec 49152).1 (by decide),
   (get_unenc_block_size_spec 100).2 (by decide)⟩

/-- Abstract model of `nacl.secret.SecretBox(key)` for a fixed key:
`encrypt msg nonce` mirrors `secret_box.encrypt(chunk, nonce)` (which returns
nonce ‖ tag ‖ body) and `decrypt` mirrors `secret_box.decrypt(chunk)` with
`none` modelling `nacl.exceptions.CryptoError`.  The box is a parameter of the
stream functions because the primitive itself lives in the external pynacl
library. -/
structure SecretBoxM where
  encrypt : List Nat → List Nat → List Nat
  decrypt : List Nat → Option (List Nat)

/-- The two facts of the pynacl SecretBox the code relies on (see the comment
in `encrypt_stream`): encryption under a 24-byte nonce adds exactly 40 bytes
(24-byte nonce plus 16-byte tag), and decryption inverts encryption. -/
structure BoxSpec (box : SecretBoxM) : Prop where
  encrypt_length : ∀ m nn, nn.length = NONCE_SIZE →
    (box.encrypt m nn).length = m.length + 40
  decrypt_encrypt : ∀ m nn, nn.length = NONCE_SIZE →
    box.decrypt (box.encrypt m nn) = some m

/-- The `read_size` recomputed at the top of each `_read_in_chunks` iteration:
`min(read_total - read_yet, chunk_size)` when a total is given. -/
def readSizeOf (chunkSize : Nat) (readTotal : Option Nat) (readYet : Nat) : Nat :=
  match readTotal with
  | none => chunkSize
  | some t => min (t - readYet) chunkSize

/-- `encryption._read_in_chunks(file_object, chunk_size, read_total)` where
`data` is the stream's remaining content and `readYet` the source's running
counter: repeatedly read `read_size` bytes and stop on an empty read. -/
def readInChunksAux (chunkSize : Nat) (readTotal : Option Nat) (readYet : Nat)
    (data : List Nat) : List (List Nat) :=
  if h : (data.take (readSizeOf chunkSize readTotal readYet)).isEmpty = true then []
  else
    data.take (readSizeOf chunkSize readTotal readYet) ::
      readInChunksAux chunkSize readTotal
        (readYet + readSizeOf chunkSize readTotal readYet)
        (data.drop (readSizeOf chunkSize readTotal readYet))
termination_by data.length
decreasing_by
  rw [List.isEmpty_iff] at h
  have h1 : readSizeOf chunkSize readTotal readYet ≠ 0 := by
    intro h0
    exact h (by simp [h0])
  have h2 : data ≠ [] := by
    intro h0
    exact h (by simp [h0])
  have h3 : 0 < data.length := List.length_pos.mpr h2
  rw [List.length_drop]
  omega

/-- `_read_in_chunks` from the start of a stream (`read_yet = 0`). -/
def readInChunks (chunkSize : Nat) (readTotal : Option Nat) (data : List Nat) :
    List (List Nat) :=
  readInChunksAux chunkSize readTotal 0 data

/-- The loop body of `CryptoHandler.encrypt_stream`: the `i`-th plain sub-chunk
is sealed with nonce `_chunk_nonce(base, i)`; `none` models the `OverflowError`
that `_chunk_nonce` can raise.  (The HMAC accumulator does not alter the
yielded data and is out of scope here.) -/
def encryptChunks (box : SecretBoxM) (base : List Nat) :
    Nat → List (List Nat) → Option (List (List Nat))
  | _, [] => some []
  | i, c :: cs => do
    let nn ← chunkNonce base i
    let rest ← encryptChunks box base (i + 1) cs
    pure (box.encrypt c nn :: rest)

/-- `CryptoHandler.encrypt_stream(plain_file_object, read_total)` with the
per-call random nonce base made explicit: the plaintext is read in sub-chunks
of `CHUNK_SIZE - 40` bytes and one SecretBox ciphertext is yielded per
sub-chunk. -/
def encryptStream (box : SecretBoxM) (base : List Nat) (plain : List Nat)
    (readTotal : Option Nat) : Option (List (List Nat)) :=
  encryptChunks box base 0 (readInChunks (CHUNK_SIZE - 40) readTotal plain)

/-- The loop of `CryptoHandler.decrypt_stream`, returning the concatenation of
the yielded plaintext chunks. -/
def decryptChunks (box : SecretBoxM) : List (List Nat) → Option (List Nat)
  | [] => some []
  | c :: cs => do
    let p ← box.decrypt c
    let rest ← decryptChunks box cs
    pure (p ++ rest)

/-- `CryptoHandler.decrypt_stream(enc_file_object, read_total, signature=None)`:
read `CHUNK_SIZE`-byte chunks and decrypt each independently (with no
signature the HMAC dummy is a no-op). -/
def decryptStream (box : SecretBoxM) (enc : List Nat) (readTotal : Option Nat) :
    Option (List Nat) :=
  decryptChunks box (readInChunks CHUNK_SIZE readTotal enc)

/-- Shape of a chunk list produced by `_read_in_chunks` with chunk size `k`:
all chunks are nonempty and at most `k` bytes, all but the last exactly `k`. -/
def ChunkShape (k : Nat) : List (List Nat) → Prop
  | [] => True
  | [c] => 0 < c.length ∧ c.length ≤ k
  | c :: cs => c.length = k ∧ ChunkShape k cs

theorem readInChunksAux_nil (c : Nat) (rt : Option Nat) (y : Nat) :
    readInChunksAux c rt y [] = [] := by
  rw [readInChunksAux]
  simp

theorem readInChunksAux_of_isEmpty {c : Nat} {rt : Option Nat} {y : Nat}
    {data : List Nat} (h : (data.take (readSizeOf c rt y)).isEmpty = true) :
    readInChunksAux c rt y data = [] := by
  rw [readInChunksAux, dif_pos h]

theorem readInChunksAux_cons {c : Nat} {rt : Option Nat} {y : Nat} {data : List Nat}
    (h : ¬(data.take (readSizeOf c rt y)).isEmpty = true) :
    readInChunksAux c rt y data =
      data.take (readSizeOf c rt y) ::
        readInChunksAux c rt (y + readSizeOf c rt y)
          (data.drop (readSizeOf c rt y)) := by
  rw [readInChunksAux, dif_neg h]

theorem readSizeOf_none (c y : Nat) : readSizeOf c none y = c := rfl

theorem readInChunksAux_none_join_bounded (c : Nat) (hc : 0 < c) :
    ∀ (n : Nat) (data : List Nat), data.length ≤ n → ∀ y,
      (readInChunksAux c none y data).flatten = data := by
  intro n
  induction n with
  | zero =>
    intro data hlen y
    have hnil : data = [] := List.eq_nil_of_length_eq_zero (Nat.le_zero.mp hlen)
    subst hnil
    rw [readInChunksAux_nil]
    rfl
  | succ n ih =>
    intro data hlen y
    by_cases hemp : (data.take (readSizeOf c none y)).isEmpty = true
    · rw [readInChunksAux_of_isEmpty hemp]
      rw [List.isEmpty_iff] at hemp
      rcases List.take_eq_nil_iff.mp hemp with h0 | h0
      · rw [readSizeOf_none] at h0
        omega
      · rw [h0]
        rfl
    · rw [readInChunksAux_cons hemp]
      rw [List.isEmpty_iff] at hemp
      have hdata : data ≠ [] := by
        intro h0
        exact hemp (by simp [h0])
      have hlen1 : 0 < data.length := List.length_pos.mpr hdata
      have hrec := ih (data.drop (readSizeOf c none y))
        (by rw [List.length_drop, readSizeOf_none]; omega)
        (y + readSizeOf c none y)
      rw [List.flatten_cons, hrec, List.take_append_drop]

/-- `_read_in_chunks` with no `read_total` reassembles to the input stream. -/
theorem readInChunks_none_join (c : Nat) (hc : 0 < c) (data : List Nat) :
    (readInChunks c none data).flatten = data :=
  readInChunksAux_none_join_bounded c hc data.length data le_rfl 0

theorem readInChunksAux_shape_bounded (c : Nat) (rt : Option Nat) :
    ∀ (n : Nat) (data : List Nat), data.length ≤ n → ∀ y,
      ChunkShape c (readInChunksAux c rt y data) := by
  intro n
  induction n with
  | zero =>
    intro data hlen y
    have hnil : data = [] := List.eq_nil_of_length_eq_zero (Nat.le_zero.mp hlen)
    subst hnil
    rw [readInChunksAux_nil]
    trivial
  | succ n ih =>
    intro data hlen y
    by_cases hemp : (data.take (readSizeOf c rt y)).isEmpty = true
    · rw [readInChunksAux_of_isEmpty hemp]
      trivial
    · rw [readInChunksAux_cons hemp]
      rw [List.isEmpty_iff] at hemp
      have hrs0 : readSizeOf c rt y ≠ 0 := by
        intro h0
        exact hemp (by simp [h0])
      have hdata : data ≠ [] := by
        intro h0
        exact hemp (by simp [h0])
      have hlenpos : 0 < data.length := List.length_pos.mpr hdata
      have hrsle : readSizeOf c rt y ≤ c := by
        cases rt with
        | none => exact Nat.le_of_eq (readSizeOf_none c y)
        | some t => exact Nat.min_le_right _ _
      cases hrec : readInChunksAux c rt (y + readSizeOf c rt y)
          (data.drop (readSizeOf c rt y)) with
      | nil =>
        show 0 < (data.take (readSizeOf c rt y)).length ∧
          (data.take (readSizeOf c rt y)).length ≤ c
        rw [List.length_take]
        omega
      | cons e rest =>
        have hemp2 : ¬((data.drop (readSizeOf c rt y)).take
            (readSizeOf c rt (y + readSizeOf c rt y))).isEmpty = true := by
          intro h2
          rw [readInChunksAux_of_isEmpty h2] at hrec
          cases hrec
        rw [List.isEmpty_iff] at hemp2
        have hdrop : data.drop (readSizeOf c rt y) ≠ [] := by
          intro h0
          exact hemp2 (by simp [h0])
        have hrs2 : readSizeOf c rt (y + readSizeOf c rt y) ≠ 0 := by
          intro h0
          exact hemp2 (by simp [h0])
        have hlong : readSizeOf c rt y < data.length := by
          by_contra hcon
          exact hdrop (List.drop_eq_nil_of_le (by omega))
        have hrsc : readSizeOf c rt y = c := by
          cases rt with
          | none => exact readSizeOf_none c y
          | some t =>
            have e1 : readSizeOf c (some t) y = min (t - y) c := rfl
            have e2 : readSizeOf c (some t) (y + readSizeOf c (some t) y) =
              min (t - (y + readSizeOf c (some t) y)) c := rfl
            rw [e1]
            rw [e2, e1] at hrs2
            omega
        have hshape2 := ih (data.drop (readSizeOf c rt y))
          (by rw [List.length_drop]; omega) (y + readSizeOf c rt y)
        rw [hrec] at hshape2
        show (data.take (readSizeOf c rt y)).length = c ∧ ChunkShape c (e :: rest)
        rw [List.length_take]
        exact ⟨by omega, hshape2⟩

theorem readInChunks_shape (c : Nat) (rt : Option Nat) (data : List Nat) :
    ChunkShape c (readInChunks c rt data) :=
  readInChunksAux_shape_bounded c rt data.length data le_rfl 0

/-- A chunk list of shape `k` is exactly what `_read_in_chunks` with chunk size
`k` recovers from its concatenation: the decrypting reader sees precisely the
chunk boundaries the encrypting writer produced. -/
theorem chunkShape_reassemble (k : Nat) (hk : 0 < k) :
    ∀ (es : List (List Nat)), ChunkShape k es → ∀ y,
      readInChunksAux k none y es.flatten = es := by
  intro es
  induction es with
  | nil =>
    intro _ y
    show readInChunksAux k none y ([] : List (List Nat)).flatten = []
    rw [List.flatten_nil, readInChunksAux_nil]
  | cons e es ih =>
    intro hshape y
    cases es with
    | nil =>
      obtain ⟨hpos, hle⟩ : 0 < e.length ∧ e.length ≤ k := hshape
      have hflat : ([e] : List (List Nat)).flatten = e := by simp
      rw [hflat]
      have htake : e.take (readSizeOf k none y) = e := by
        rw [readSizeOf_none]
        exact List.take_of_length_le hle
      have hemp : ¬(e.take (readSizeOf k none y)).isEmpty = true := by
        rw [htake, List.isEmpty_iff]
        intro h0
        rw [h0] at hpos
        simp at hpos
      rw [readInChunksAux_cons hemp, htake]
      have hdrop : e.drop (readSizeOf k none y) = [] := by
        rw [readSizeOf_none]
        exact List.drop_eq_nil_of_le hle
      rw [hdrop, readInChunksAux_nil]
    | cons e2 es2 =>
      obtain ⟨hlen, hshape2⟩ : e.length = k ∧ ChunkShape k (e2 :: es2) := hshape
      have hflat : (e :: e2 :: es2).flatten = e ++ (e2 :: es2).flatten := by simp
      rw [hflat]
      have htake : (e ++ (e2 :: es2).flatten).take (readSizeOf k none y) = e := by
        rw [readSizeOf_none]
        exact List.take_left' hlen
      have hemp : ¬((e ++ (e2 :: es2).flatten).take (readSizeOf k none y)).isEmpty
          = true := by
        rw [htake, List.isEmpty_iff]
        intro h0
        rw [h0] at hlen
        simp at hlen
        omega
      rw [readInChunksAux_cons hemp, htake]
      have hdrop : (e ++ (e2 :: es2).flatten).drop (readSizeOf k none y) =
          (e2 :: es2).flatten := by
        rw [readSizeOf_none]
        exact List.drop_left' hlen
      rw [hdrop, ih hshape2 (y + readSizeOf k none y)]

theorem encryptChunks_length (box : SecretBoxM) (base : List Nat) :
    ∀ (ps : List (List Nat)) (i : Nat) (es : List (List Nat)),
      encryptChunks box base i ps = some es → es.length = ps.length := by
  intro ps
  induction ps with
  | nil =>
    intro i es h
    simp [encryptChunks] at h
    rw [← h]
  | cons p ps ih =>
    intro i es h
    simp [encryptChunks, Option.bind_eq_some] at h
    obtain ⟨nn, hnn, rest, hrest, hes⟩ := h
    subst hes
    simp [ih (i + 1) rest hrest]

/-- Core invariant of `encrypt_stream`: a plain chunk list of shape
`CHUNK_SIZE - 40` encrypts (when no nonce overflows) to a ciphertext chunk list
of shape `CHUNK_SIZE`, and decrypting those chunks gives back the plaintext. -/
theorem encryptChunks_spec (box : SecretBoxM) (hbox : BoxSpec box) (base : List Nat) :
    ∀ (ps : List (List Nat)) (i : Nat) (es : List (List Nat)),
      ChunkShape (CHUNK_SIZE - 40) ps →
      encryptChunks box base i ps = some es →
      ChunkShape CHUNK_SIZE es ∧ decryptChunks box es = some ps.flatten := by
  intro ps
  induction ps with
  | nil =>
    intro i es hshape h
    simp [encryptChunks] at h
    subst h
    exact ⟨trivial, rfl⟩
  | cons p ps ih =>
    intro i es hshape h
    simp [encryptChunks, Option.bind_eq_some] at h
    obtain ⟨nn, hnn, rest, hrest, hes⟩ := h
    subst hes
    have hnlen : nn.length = NONCE_SIZE := chunkNonce_length base i nn hnn
    have hplen := hbox.encrypt_length p nn hnlen
    have hCS : CHUNK_SIZE = 16384 := rfl
    cases ps with
    | nil =>
      simp [encryptChunks] at hrest
      subst hrest
      obtain ⟨hp0, hple⟩ : 0 < p.length ∧ p.length ≤ CHUNK_SIZE - 40 := hshape
      refine ⟨?_, ?_⟩
      · show 0 < (box.encrypt p nn).length ∧ (box.encrypt p nn).length ≤ CHUNK_SIZE
        omega
      · simp [decryptChunks, hbox.decrypt_encrypt p nn hnlen]
    | cons p2 ps2 =>
      obtain ⟨hpeq, hshape2⟩ :
          p.length = CHUNK_SIZE - 40 ∧ ChunkShape (CHUNK_SIZE - 40) (p2 :: ps2) :=
        hshape
      obtain ⟨hrshape, hrdec⟩ := ih (i + 1) rest hshape2 hrest
      have hrlen : rest.length = (p2 :: ps2).length :=
        encryptChunks_length box base _ _ _ hrest
      cases rest with
      | nil => simp at hrlen
      | cons e2 rest2 =>
        refine ⟨?_, ?_⟩
        · show (box.encrypt p nn).length = CHUNK_SIZE ∧ ChunkShape CHUNK_SIZE (e2 :: rest2)
          exact ⟨by omega, hrshape⟩
        · have hd1 : box.decrypt (box.encrypt p nn) = some p :=
            hbox.decrypt_encrypt p nn hnlen
          show decryptChunks box (box.encrypt p nn :: e2 :: rest2) =
            some ((p :: p2 :: ps2).flatten)
          rw [show decryptChunks box (box.encrypt p nn :: e2 :: rest2) =
              (box.decrypt (box.encrypt p nn)).bind (fun q =>
                (decryptChunks box (e2 :: rest2)).bind (fun rest => some (q ++ rest)))
            from rfl]
          rw [hd1, Option.some_bind, hrdec, Option.some_bind]
          simp

/-- **C1** — round-trip: whenever `encrypt_stream` succeeds on a plaintext `P`
(any key — the box is arbitrary — and any nonce base, including empty `P` and
`P` a multiple of `CHUNK_SIZE - 40`), feeding the concatenation of its output
chunks to `decrypt_stream` with the same key yields exactly `P`. -/
theorem encrypt_decrypt_roundtrip (box : SecretBoxM) (hbox : BoxSpec box)
    (base P : List Nat) (cs : List (List Nat))
    (henc : encryptStream box base P none = some cs) :
    decryptStream box cs.flatten none = some P := by
  have hshape : ChunkShape (CHUNK_SIZE - 40) (readInChunks (CHUNK_SIZE - 40) none P) :=
    readInChunks_shape (CHUNK_SIZE - 40) none P
  unfold encryptStream at henc
  obtain ⟨hcs_shape, hdec⟩ := encryptChunks_spec box hbox base _ 0 cs hshape henc
  unfold decryptStream readInChunks
  rw [chunkShape_reassemble CHUNK_SIZE (by decide) cs hcs_shape 0, hdec,
    readInChunks_none_join (CHUNK_SIZE - 40) (by decide) P]

/-- A concrete SecretBox model for witnesses: nonce ‖ 16-byte zero tag ‖ body,
with `decrypt` dropping the 40-byte prefix. -/
def toyBox : SecretBoxM where
  encrypt m nn := nn ++ List.replicate 16 0 ++ m
  decrypt c := some (c.drop 40)

theorem toyBox_spec : BoxSpec toyBox := by
  have h24 : NONCE_SIZE = 24 := rfl
  constructor
  · intro m nn h
    simp only [toyBox]
    simp [h, h24]
    omega
  · intro m nn h
    simp only [toyBox]
    rw [List.drop_left' (by simp [h, h24])]

theorem encrypt_decrypt_roundtrip_witness :
    BoxSpec toyBox ∧
    encryptStream toyBox (List.replicate 24 0) [] none = some [] ∧
    decryptStream toyBox (List.flatten ([] : List (List Nat))) none = some [] := by
  have henc : encryptStream toyBox (List.replicate 24 0) [] none = some [] := by
    unfold encryptStream readInChunks
    rw [readInChunksAux_nil]
    rfl
  exact ⟨toyBox_spec, henc,
    encrypt_decrypt_roundtrip toyBox toyBox_spec (List.replicate 24 0) [] [] henc⟩

theorem readInChunksAux_none_readYet (c : Nat) :
    ∀ (n : Nat) (data : List Nat), data.length ≤ n → ∀ y v,
      readInChunksAux c none y data = readInChunksAux c none v data := by
  intro n
  induction n with
  | zero =>
    intro data hlen y v
    have hnil : data = [] := List.eq_nil_of_length_eq_zero (Nat.le_zero.mp hlen)
    subst hnil
    rw [readInChunksAux_nil, readInChunksAux_nil]
  | succ n ih =>
    intro data hlen y v
    by_cases hemp : (data.take c).isEmpty = true
    · rw [@readInChunksAux_of_isEmpty c none y data
          (by rw [readSizeOf_none]; exact hemp),
        @readInChunksAux_of_isEmpty c none v data
          (by rw [readSizeOf_none]; exact hemp)]
    · rw [@readInChunksAux_cons c none y data
          (by rw [readSizeOf_none]; exact hemp),
        @readInChunksAux_cons c none v data
          (by rw [readSizeOf_none]; exact hemp)]
      simp only [readSizeOf_none]
      rw [List.isEmpty_iff] at hemp
      have hdata : data ≠ [] := by
        intro h0
        exact hemp (by simp [h0])
      have hc0 : c ≠ 0 := by
        intro h0
        exact hemp (by simp [h0])
      have hlenpos : 0 < data.length := List.length_pos.mpr hdata
      rw [ih (data.drop c) (by rw [List.length_drop]; omega) (y + c) (v + c)]

/-- When the `read_total` of `_read_in_chunks` is a multiple of the chunk size
(as it always is in `MultipartChunk.data`, where it is
`n_chunks * (CHUNK_SIZE - 40)`), bounding the read is the same as reading the
`read_total`-byte prefix of the stream. -/
theorem readInChunksAux_total_eq (c : Nat) :
    ∀ (n : Nat) (data : List Nat), data.length ≤ n → ∀ (t y : Nat), c ∣ (t - y) →
      readInChunksAux c (some t) y data =
        readInChunksAux c none 0 (data.take (t - y)) := by
  intro n
  induction n with
  | zero =>
    intro data hlen t y _
    have hnil : data = [] := List.eq_nil_of_length_eq_zero (Nat.le_zero.mp hlen)
    subst hnil
    rw [readInChunksAux_nil, List.take_nil, readInChunksAux_nil]
  | succ n ih =>
    intro data hlen t y hdvd
    have hrs : readSizeOf c (some t) y = min (t - y) c := rfl
    by_cases h0 : readSizeOf c (some t) y = 0
    · rw [readInChunksAux_of_isEmpty (by rw [h0]; simp)]
      have hcase : t - y = 0 ∨ c = 0 := by rw [hrs] at h0; omega
      rcases hcase with h1 | h1
      · rw [h1, List.take_zero, readInChunksAux_nil]
      · exact (readInChunksAux_of_isEmpty
          (by rw [show readSizeOf c none 0 = c from rfl, h1]; simp)).symm
    · have hmin0 : min (t - y) c ≠ 0 := by rw [hrs] at h0; exact h0
      have hcpos : 0 < c := by omega
      have htpos : 0 < t - y := by omega
      have hge : c ≤ t - y := Nat.le_of_dvd htpos hdvd
      have hrsc : readSizeOf c (some t) y = c := by rw [hrs]; omega
      by_cases hdata : data = []
      · subst hdata
        rw [readInChunksAux_nil, List.take_nil, readInChunksAux_nil]
      · have hlenpos : 0 < data.length := List.length_pos.mpr hdata
        have hemp : ¬(data.take (readSizeOf c (some t) y)).isEmpty = true := by
          rw [hrsc, List.isEmpty_iff]
          intro hcon
          rcases List.take_eq_nil_iff.mp hcon with h1 | h1
          · omega
          · exact hdata h1
        rw [readInChunksAux_cons hemp, hrsc]
        have hemp2 : ¬((data.take (t - y)).take (readSizeOf c none 0)).isEmpty
            = true := by
          rw [show readSizeOf c none 0 = c from rfl, List.take_take,
            Nat.min_eq_left hge, List.isEmpty_iff]
          intro hcon
          rcases List.take_eq_nil_iff.mp hcon with h1 | h1
          · omega
          · exact hdata h1
        rw [readInChunksAux_cons hemp2, show readSizeOf c none 0 = c from rfl,
          List.take_take, Nat.min_eq_left hge]
        have hdrop_eq : (data.take (t - y)).drop c = (data.drop c).take (t - (y + c)) := by
          have h2 : t - y = c + (t - (y + c)) := by omega
          rw [h2, ← List.take_drop]
        rw [hdrop_eq]
        rw [ih (data.drop c) (by rw [List.length_drop]; omega) t (y + c)
          (by rw [show t - (y + c) = t - y - c by omega]; exact Nat.dvd_sub' hdvd dvd_rfl)]
        rw [readInChunksAux_none_readYet c ((data.drop c).take (t - (y + c))).length
          ((data.drop c).take (t - (y + c))) le_rfl 0 (0 + c)]

theorem get_unenc_block_size_eq {b ub : Nat} (h : get_unenc_block_size b = some ub) :
    ub = b / CHUNK_SIZE * (CHUNK_SIZE - 40) := by
  by_cases hm : b % CHUNK_SIZE = 0
  · simp [get_unenc_block_size, hm] at h
    exact h.symm
  · simp [get_unenc_block_size, hm] at h

theorem get_unenc_block_size_dvd {b ub : Nat} (h : get_unenc_block_size b = some ub) :
    (CHUNK_SIZE - 40) ∣ ub :=
  ⟨b / CHUNK_SIZE, (get_unenc_block_size_eq h).trans (Nat.mul_comm _ _)⟩

/-- `glacier_io.MultipartChunk` — the planner/uploader state of one part.  The
`filepath` is represented by the `file` argument of `chunkData`; the `_data`
and `_checksum` caches hold no independent information.  `endLoc` is an `Int`
because `split_file` stores `end_pos - 1`, which is `-1` for an empty range at
offset 0.  `encrypted` mirrors `_encrypted = crypto_handler is not None`. -/
structure MultipartChunk where
  blockSize : Nat
  startLoc : Nat
  endLoc : Int
  completed : Bool
  encrypted : Bool
deriving DecidableEq

/-- Python exceptions raised along the chunk-data and upload paths. -/
inductive PyError where
  | recursionError
  | runtimeHandlerUndefined
  | runtimeNotInitialized
  | runtimeRetriesExhausted
  | valueError
  | overflowError
  | attributeNone
deriving DecidableEq

/-- The `crypto_handler` property getter of `MultipartChunk` with an explicit
recursion bound: its guard is `if self.encrypted and self.crypto_handler is
None: raise RuntimeError(...)`, and `self.crypto_handler` there is the
property itself, not the stored `_crypto_handler` — so when `encrypted` is
true the guard re-enters the getter unconditionally.  `stored` is
`_crypto_handler`; `.error .recursionError` models Python raising
`RecursionError` when the interpreter recursion limit (the bound) runs out. -/
def cryptoHandlerGet (encrypted : Bool) (stored : Option SecretBoxM) :
    Nat → Except PyError (Option SecretBoxM)
  | 0 => .error .recursionError
  | fuel + 1 =>
    if encrypted then
      match cryptoHandlerGet encrypted stored fuel with
      | .error e => .error e
      | .ok inner =>
        if inner.isSome then .ok stored else .error .runtimeHandlerUndefined
    else .ok stored

/-- For every encrypted chunk the `crypto_handler` getter recurses until the
interpreter limit and raises `RecursionError` — whether or not a handler is
stored. -/
theorem cryptoHandlerGet_encrypted (stored : Option SecretBoxM) :
    ∀ fuel, cryptoHandlerGet true stored fuel = .error .recursionError := by
  intro fuel
  induction fuel with
  | zero => rfl
  | succ fuel ih => simp [cryptoHandlerGet, ih]

/-- `MultipartChunk.data`: seek to `start_loc`; when encrypted, fetch
`self.crypto_handler` (through the property above), pipe the next
`get_unenc_block_size(block_size)` bytes of the file through `encrypt_stream`
(a fresh nonce base per call — the explicit `nonceBase`) and concatenate the
yielded ciphertext chunks; otherwise read `block_size` bytes raw.  `fuel` is
the interpreter's recursion limit. -/
def chunkData (nonceBase file : List Nat) (stored : Option SecretBoxM)
    (fuel : Nat) (c : MultipartChunk) : Except PyError (List Nat) :=
  if c.encrypted then
    match cryptoHandlerGet c.encrypted stored fuel with
    | .error e => .error e
    | .ok none => .error .attributeNone
    | .ok (some box) =>
      match get_unenc_block_size c.blockSize with
      | none => .error .valueError
      | some ub =>
        match encryptStream box nonceBase (file.drop c.startLoc) (some ub) with
        | none => .error .overflowError
        | some cs => .ok cs.flatten
  else .ok ((file.drop c.startLoc).take c.blockSize)

theorem chunkData_encrypted_err (nonceBase file : List Nat)
    (stored : Option SecretBoxM) (fuel : Nat) (c : MultipartChunk)
    (hc : c.encrypted = true) :
    chunkData nonceBase file stored fuel c = .error .recursionError := by
  unfold chunkData
  rw [hc]
  simp [cryptoHandlerGet_encrypted]

/-- **C2 (code bug)** — the claim describes the intended behavior of the
`data` accessor, but the `crypto_handler` getter (`glacier_io.py` line 59)
evaluates the property itself inside its own guard, so for every encrypted
chunk — any nonce base, file, stored handler (even one that is set) and
recursion limit — `data` raises `RecursionError` instead of returning the
encryption of the chunk's `[plain_start, plain_end]` range. -/
theorem chunkData_encrypted_raises (nonceBase file : List Nat)
    (stored : Option SecretBoxM) (fuel : Nat) (c : MultipartChunk)
    (hc : c.encrypted = true) :
    chunkData nonceBase file stored fuel c = .error .recursionError :=
  chunkData_encrypted_err nonceBase file stored fuel c hc

/-- A concrete encrypted chunk over the 3-byte file `[1, 2, 3]`: one block of
the aligned size 16384, covering `[0, 2]`. -/
def sampleChunk : MultipartChunk := ⟨16384, 0, 2, false, true⟩

theorem chunkData_encrypted_raises_witness :
    sampleChunk.encrypted = true ∧
    chunkData (List.replicate 24 0) [1, 2, 3] (some toyBox) 1000 sampleChunk =
      .error .recursionError :=
  ⟨rfl,
    chunkData_encrypted_raises (List.replicate 24 0) [1, 2, 3] (some toyBox)
      1000 sampleChunk rfl⟩

/-- One chunk constructed by `MultipartChunk.split_file`:
`cls(filepath, block_size, cur_position, end_pos - 1, crypto_handler)`. -/
def mkChunk (blockSize cur endPos : Nat) (enc : Bool) : MultipartChunk :=
  ⟨blockSize, cur, (endPos : Int) - 1, false, enc⟩

/-- The `while cur_position <= total_size` loop of `MultipartChunk.split_file`
with an explicit iteration bound `fuel`: the chunks appended so far, and
whether the loop exited normally (`false` when the bound was hit with the loop
condition still true). -/
def splitFileLoop (blockSize step totalSize : Nat) (enc : Bool) :
    Nat → Nat → List MultipartChunk × Bool
  | 0, _ => ([], false)
  | fuel + 1, cur =>
    if cur ≤ totalSize then
      let endPos := min (cur + step) totalSize
      let r := splitFileLoop blockSize step totalSize enc fuel endPos
      (mkChunk blockSize cur endPos enc :: r.1, r.2)
    else ([], true)

/-- `MultipartChunk.split_file(filepath, block_size, crypto_handler)` over a
file of `totalSize` bytes.  `none` models both the `ValueError` of
`get_unenc_block_size` and exhaustion of the loop's iteration bound. -/
def split_file (totalSize blockSize : Nat) (useCrypto : Bool) (fuel : Nat) :
    Option (List MultipartChunk) :=
  match if useCrypto then get_unenc_block_size blockSize else some blockSize with
  | none => none
  | some step =>
    match splitFileLoop blockSize step totalSize useCrypto fuel 0 with
    | (chunks, true) => some chunks
    | (_, false) => none

theorem splitFileLoop_not_done (blockSize step totalSize : Nat) (enc : Bool) :
    ∀ (fuel cur : Nat), cur ≤ totalSize →
      (splitFileLoop blockSize step totalSize enc fuel cur).2 = false := by
  intro fuel
  induction fuel with
  | zero => intro cur _; rfl
  | succ fuel ih =>
    intro cur hcur
    simp only [splitFileLoop, hcur, if_true]
    exact ih _ (Nat.min_le_right _ _)

/-- **C3** (code bug) — `split_file` never terminates: `end_pos =
min(cur_position + step, total_size)` can never exceed `total_size`, so the
`while cur_position <= total_size` condition stays true forever once
`cur_position` reaches `total_size` (which it always does); for every file
size, block size and cipher setting the loop runs past every iteration
bound.  In particular a zero-byte file loops at `cur_position = 0` re-appending
the empty boundary chunk instead of returning exactly one. -/
theorem split_file_never_returns (totalSize blockSize : Nat) (useCrypto : Bool)
    (fuel : Nat) : split_file totalSize blockSize useCrypto fuel = none := by
  unfold split_file
  cases hstep : (if useCrypto then get_unenc_block_size blockSize else some blockSize) with
  | none => rfl
  | some step =>
    cases hl : splitFileLoop blockSize step totalSize useCrypto fuel 0 with
    | mk chunks done =>
      have hdone := splitFileLoop_not_done blockSize step totalSize useCrypto fuel 0
        (Nat.zero_le _)
      rw [hl] at hdone
      simp at hdone
      subst hdone
      show (match splitFileLoop blockSize step totalSize useCrypto fuel 0 with
        | (chunks, true) => some chunks
        | (_, false) => none) = none
      rw [hl]

theorem splitFileLoop_span (blockSize step totalSize : Nat) (enc : Bool) :
    ∀ (fuel cur : Nat) (c : MultipartChunk),
      c ∈ (splitFileLoop blockSize step totalSize enc fuel cur).1 →
      c.blockSize = blockSize ∧ c.encrypted = enc ∧
      c.endLoc - (c.startLoc : Int) + 1 ≤ (step : Int) := by
  intro fuel
  induction fuel with
  | zero =>
    intro cur c hc
    simp [splitFileLoop] at hc
  | succ fuel ih =>
    intro cur c hc
    by_cases hcur : cur ≤ totalSize
    · simp only [splitFileLoop, hcur, if_true] at hc
      rcases List.mem_cons.mp hc with h1 | h1
      · subst h1
        refine ⟨rfl, rfl, ?_⟩
        show ((min (cur + step) totalSize : Nat) : Int) - 1 - (cur : Int) + 1 ≤ (step : Int)
        have hmin : min (cur + step) totalSize ≤ cur + step := Nat.min_le_left _ _
        omega
      · exact ih _ c h1
    · simp [splitFileLoop, hcur] at hc

/-- **C8 (counterexample)** — without a cipher the planner's first chunk on a
10-byte file with `block_size = 4` covers `[0, 3]`: its plaintext span
`plain_end - plain_start + 1 = 4` is not strictly smaller than
`target_part_size = 4`, so the claimed strict invariant fails when no cipher
is supplied. -/
theorem split_file_span_counterexample :
    mkChunk 4 0 4 false ∈ (splitFileLoop 4 4 10 false 3 0).1 ∧
    ¬((mkChunk 4 0 4 false).endLoc - ((mkChunk 4 0 4 false).startLoc : Int) + 1
        < (4 : Int)) := by
  constructor <;> decide

/-- **C8 (amended)** — every chunk the planner loop constructs satisfies
`plain_end - plain_start + 1 ≤ target_part_size` (matching the `__init__`
assertion `end_loc - start_loc < block_size`); the strict inequality
`plain_end - plain_start + 1 < target_part_size` holds whenever a cipher is
supplied and `target_part_size` is a positive multiple of `CHUNK_SIZE`, but
without a cipher full chunks have span exactly `target_part_size`. -/
theorem splitFile_span_spec :
    (∀ totalSize blockSize fuel cur (c : MultipartChunk),
      c ∈ (splitFileLoop blockSize blockSize totalSize false fuel cur).1 →
        c.endLoc - (c.startLoc : Int) + 1 ≤ (blockSize : Int)) ∧
    (∀ totalSize blockSize step fuel cur (c : MultipartChunk),
      blockSize % CHUNK_SIZE = 0 → blockSize ≠ 0 →
      get_unenc_block_size blockSize = some step →
      c ∈ (splitFileLoop blockSize step totalSize true fuel cur).1 →
        c.endLoc - (c.startLoc : Int) + 1 < (blockSize : Int)) := by
  constructor
  · intro totalSize blockSize fuel cur c hc
    exact (splitFileLoop_span blockSize blockSize totalSize false fuel cur c hc).2.2
  · intro totalSize blockSize step fuel cur c hmod hne hub hc
    have hspan := (splitFileLoop_span blockSize step totalSize true fuel cur c hc).2.2
    have hstep := get_unenc_block_size_eq hub
    have hCS : CHUNK_SIZE = 16384 := rfl
    rw [hCS] at hstep hmod
    have hlt : step < blockSize := by omega
    omega

theorem splitFile_span_spec_witness :
    mkChunk 16384 0 5 true ∈ (splitFileLoop 16384 16344 5 true 2 0).1 ∧
    (16384 % CHUNK_SIZE = 0) ∧ (16384 ≠ 0) ∧
    get_unenc_block_size 16384 = some 16344 ∧
    (mkChunk 16384 0 5 true).endLoc - ((mkChunk 16384 0 5 true).startLoc : Int) + 1 <
      ((16384 : Nat) : Int) :=
  ⟨by decide, by decide, by decide, by decide,
    splitFile_span_spec.2 5 16384 16344 2 0 (mkChunk 16384 0 5 true)
      (by decide) (by decide) (by decide) (by decide)⟩

/-- `glacier_io.MultipartUpload` session state: the backend-assigned ids
(opaque, as `Option Nat`) and the `_chunks` list.  An empty `_chunks` means the
lazy `chunks` property would call the divergent `split_file`; the `responses`
log holds opaque backend dictionaries and carries no further state. -/
structure UploadState where
  uploadId : Option Nat
  archiveId : Option Nat
  chunks : List MultipartChunk
deriving DecidableEq

/-- `MultipartChunk.finalize()`: mark the chunk completed (the `_data` buffer
release is cache-only). -/
def chunkFinalize (c : MultipartChunk) : MultipartChunk :=
  { c with completed := true }

/-- Result of one `upload()` pass: the updated chunk list, the indices for
which a backend upload-part call was issued, and the exception (if any) that
aborted the pass. -/
structure PassResult where
  chunks : List MultipartChunk
  calls : List Nat
  err : Option PyError

/-- The `for chunk in self.chunks` loop of `MultipartUpload.upload`, at chunk
index `i`.  A completed chunk is skipped with no backend call.  For an
incomplete chunk the call arguments are evaluated first — `body=chunk.data`
(and `checksum=chunk.checksum`, a tree hash over those same bytes): if that
raises, the exception aborts the pass right there, with the remaining chunks
untouched and no backend call issued for this chunk.  Otherwise
`upload_multipart_part` is issued — abstracted by `ack i`, true iff the
response checksum equals the chunk's checksum — and the chunk is finalized on
a match, left incomplete otherwise. -/
def uploadPassAux (stored : Option SecretBoxM) (nonceBases : Nat → List Nat)
    (file : List Nat) (fuel : Nat) (ack : Nat → Bool) :
    Nat → List MultipartChunk → PassResult
  | _, [] => ⟨[], [], none⟩
  | i, c :: cs =>
    if c.completed then
      let r := uploadPassAux stored nonceBases file fuel ack (i + 1) cs
      ⟨c :: r.chunks, r.calls, r.err⟩
    else
      match chunkData (nonceBases i) file stored fuel c with
      | .error e => ⟨c :: cs, [], some e⟩
      | .ok _ =>
        let r := uploadPassAux stored nonceBases file fuel ack (i + 1) cs
        ⟨(if ack i then chunkFinalize c else c) :: r.chunks, i :: r.calls, r.err⟩

/-- `MultipartUpload.upload()`: raises `RuntimeError('must initialize
first!')` without an `upload_id`; otherwise one pass over the chunks.  The
outer `none` models the divergence of the lazy `chunks` property, which calls
the non-terminating `split_file` when `_chunks` is empty; `nonceBases i` is
the fresh random nonce base `encrypt_stream` would draw for chunk `i`.  On an
exception the state mutated so far is kept (chunk updates are in place) and
the error propagates to the caller. -/
def upload (stored : Option SecretBoxM) (nonceBases : Nat → List Nat)
    (file : List Nat) (fuel : Nat) (ack : Nat → Bool) (s : UploadState) :
    Option (UploadState × List Nat × Option PyError) :=
  if s.uploadId.isSome = false then some (s, [], some .runtimeNotInitialized)
  else if s.chunks.isEmpty then none
  else
    some
      ({ s with chunks := (uploadPassAux stored nonceBases file fuel ack 0 s.chunks).chunks },
        (uploadPassAux stored nonceBases file fuel ack 0 s.chunks).calls,
        (uploadPassAux stored nonceBases file fuel ack 0 s.chunks).err)

theorem isEmpty_false_of_not_all_completed (cs : List MultipartChunk)
    (h : cs.all (fun c => c.completed) = false) : cs.isEmpty = false := by
  cases cs with
  | nil => simp at h
  | cons c cs => rfl

/-- If every chunk of the list is encrypted and at least one is incomplete,
the pass aborts at the first incomplete chunk with the `RecursionError` from
`chunk.data`: no chunk is changed and no backend call is issued. -/
theorem uploadPassAux_allenc (stored : Option SecretBoxM)
    (nonceBases : Nat → List Nat) (file : List Nat) (fuel : Nat)
    (ack : Nat → Bool) :
    ∀ (cs : List MultipartChunk) (i : Nat),
      cs.all (fun c => c.encrypted) = true →
      cs.all (fun c => c.completed) = false →
      uploadPassAux stored nonceBases file fuel ack i cs =
        ⟨cs, [], some .recursionError⟩ := by
  intro cs
  induction cs with
  | nil =>
    intro i _ hsome
    simp at hsome
  | cons c cs ih =>
    intro i hallenc hsome
    simp only [List.all_cons, Bool.and_eq_true] at hallenc
    by_cases hc : c.completed
    · have hcs : cs.all (fun c => c.completed) = false := by
        simp only [List.all_cons] at hsome
        rw [hc, Bool.true_and] at hsome
        exact hsome
      simp [uploadPassAux, hc, ih (i + 1) hallenc.2 hcs]
    · simp [uploadPassAux, hc,
        chunkData_encrypted_err (nonceBases i) file stored fuel c hallenc.1]

/-- `upload()` on an initialized all-encrypted session with an incomplete
chunk: the state comes back unchanged, no upload-part call was issued, and the
`RecursionError` from the first incomplete chunk's `data` propagates. -/
theorem upload_allenc_eq (stored : Option SecretBoxM)
    (nonceBases : Nat → List Nat) (file : List Nat) (fuel : Nat)
    (ack : Nat → Bool) (s : UploadState)
    (hid : s.uploadId.isSome = true)
    (hallenc : s.chunks.all (fun c => c.encrypted) = true)
    (hsome : s.chunks.all (fun c => c.completed) = false) :
    upload stored nonceBases file fuel ack s =
      some (s, [], some .recursionError) := by
  have hne : s.chunks.isEmpty = false :=
    isEmpty_false_of_not_all_completed s.chunks hsome
  unfold upload
  rw [if_neg (by rw [hid]; simp)]
  rw [if_neg (by rw [hne]; simp)]
  rw [uploadPassAux_allenc stored nonceBases file fuel ack s.chunks 0 hallenc hsome]

theorem incomplete_enumFrom_ne_nil :
    ∀ (cs : List MultipartChunk) (k : Nat),
      cs.all (fun c => c.completed) = false →
      ((cs.enumFrom k).filter (fun p => !p.2.completed)).map Prod.fst ≠ [] := by
  intro cs
  induction cs with
  | nil =>
    intro k h
    simp at h
  | cons c cs ih =>
    intro k h
    simp only [List.all_cons] at h
    by_cases hc : c.completed
    · have hcs : cs.all (fun c => c.completed) = false := by
        rw [hc, Bool.true_and] at h
        exact h
      have := ih (k + 1) hcs
      simpa [List.enumFrom_cons, hc] using this
    · simp [List.enumFrom_cons, hc]

/-- **C6 (code bug)** — the claim describes the intended resumability pass,
but on an initialized all-encrypted session with at least one incomplete
chunk, `upload()` evaluates `chunk.data` (a call argument) for the first
incomplete chunk before any backend call, and that raises `RecursionError`
through the `crypto_handler` getter: the pass issues zero upload-part calls —
although the list of incomplete indices it is supposed to attempt is
nonempty — changes no chunk, and propagates the error. -/
theorem upload_encrypted_session_raises (stored : Option SecretBoxM)
    (nonceBases : Nat → List Nat) (file : List Nat) (fuel : Nat)
    (ack : Nat → Bool) (s : UploadState)
    (hid : s.uploadId.isSome = true)
    (hallenc : s.chunks.all (fun c => c.encrypted) = true)
    (hsome : s.chunks.all (fun c => c.completed) = false) :
    upload stored nonceBases file fuel ack s =
      some (s, [], some .recursionError) ∧
    ((s.chunks.enum.filter (fun p => !p.2.completed)).map Prod.fst) ≠ [] :=
  ⟨upload_allenc_eq stored nonceBases file fuel ack s hid hallenc hsome,
    incomplete_enumFrom_ne_nil s.chunks 0 hsome⟩

theorem upload_encrypted_session_raises_witness :
    ((⟨some 1, none, [sampleChunk]⟩ : UploadState).uploadId.isSome = true) ∧
    ((⟨some 1, none, [sampleChunk]⟩ : UploadState).chunks.all
      (fun c => c.encrypted) = true) ∧
    ((⟨some 1, none, [sampleChunk]⟩ : UploadState).chunks.all
      (fun c => c.completed) = false) ∧
    (upload (some toyBox) (fun _ => List.replicate 24 0) [1, 2, 3] 1000
        (fun _ => true) ⟨some 1, none, [sampleChunk]⟩ =
      some (⟨some 1, none, [sampleChunk]⟩, [], some .recursionError) ∧
     (((⟨some 1, none, [sampleChunk]⟩ : UploadState).chunks.enum.filter
        (fun p => !p.2.completed)).map Prod.fst) ≠ []) :=
  ⟨rfl, rfl, rfl,
    upload_encrypted_session_raises (some toyBox) (fun _ => List.replicate 24 0)
      [1, 2, 3] 1000 (fun _ => true) ⟨some 1, none, [sampleChunk]⟩ rfl rfl rfl⟩

/-- The `while not all(x.completed for x in self.chunks)` loop of
`MultipartUpload.upload_loop(n_tries)`, carrying the running `loop_count`.
`nonceBases`/`acks` abstract the per-pass randomness and backend responses;
the returned `Nat` counts the `upload()` invocations made, and the
`Option PyError` is the exception the loop raises —
`RuntimeError('failed after %i tries')` when the retry budget is exhausted,
or whatever `upload()` raised, propagated unchanged.  The outer `none` again
models the divergent lazy `chunks` property on an empty `_chunks`. -/
def uploadLoopAux (stored : Option SecretBoxM) (nonceBases : Nat → Nat → List Nat)
    (file : List Nat) (fuel : Nat) (acks : Nat → Nat → Bool) (nTries : Nat)
    (loopCount : Nat) (s : UploadState) :
    Option (UploadState × Nat × Option PyError) :=
  if s.chunks.isEmpty then none
  else if s.chunks.all (fun c => c.completed) then some (s, 0, none)
  else if h : nTries ≤ loopCount then some (s, 0, some .runtimeRetriesExhausted)
  else
    match upload stored (nonceBases loopCount) file fuel (acks loopCount) s with
    | none => none
    | some (s2, _, some e) => some (s2, 1, some e)
    | some (s2, _, none) =>
      match uploadLoopAux stored nonceBases file fuel acks nTries (loopCount + 1) s2 with
      | none => none
      | some (t, k, err) => some (t, k + 1, err)
termination_by nTries - loopCount
decreasing_by omega

/-- `MultipartUpload.upload_loop(n_tries)` from `loop_count = 0`. -/
def uploadLoop (stored : Option SecretBoxM) (nonceBases : Nat → Nat → List Nat)
    (file : List Nat) (fuel : Nat) (acks : Nat → Nat → Bool) (nTries : Nat)
    (s : UploadState) : Option (UploadState × Nat × Option PyError) :=
  uploadLoopAux stored nonceBases file fuel acks nTries 0 s

/-- **C7 (code bug)** — the claim describes the intended bounded-retry loop,
but on an initialized all-encrypted session with an incomplete chunk,
`upload_loop(n_tries=3)` propagates the `RecursionError` raised inside the
very first `upload()` pass (from the first incomplete chunk's `data`): it
stops after exactly one `upload()` invocation with the session unchanged —
neither completing the chunks nor raising the retries-exhausted error the
claim names as the only failure mode, for every backend behavior `acks`. -/
theorem uploadLoop_encrypted_session_raises (stored : Option SecretBoxM)
    (nonceBases : Nat → Nat → List Nat) (file : List Nat) (fuel : Nat)
    (acks : Nat → Nat → Bool) (s : UploadState)
    (hid : s.uploadId.isSome = true)
    (hallenc : s.chunks.all (fun c => c.encrypted) = true)
    (hsome : s.chunks.all (fun c => c.completed) = false) :
    uploadLoop stored nonceBases file fuel acks 3 s =
      some (s, 1, some .recursionError) := by
  have hne : s.chunks.isEmpty = false :=
    isEmpty_false_of_not_all_completed s.chunks hsome
  unfold uploadLoop
  rw [uploadLoopAux]
  rw [if_neg (by rw [hne]; simp)]
  rw [if_neg (by rw [hsome]; simp)]
  rw [dif_neg (by omega)]
  rw [upload_allenc_eq stored (nonceBases 0) file fuel (acks 0) s hid hallenc
    hsome]

theorem uploadLoop_encrypted_session_raises_witness :
    ((⟨some 1, none, [sampleChunk]⟩ : UploadState).uploadId.isSome = true) ∧
    ((⟨some 1, none, [sampleChunk]⟩ : UploadState).chunks.all
      (fun c => c.encrypted) = true) ∧
    ((⟨some 1, none, [sampleChunk]⟩ : UploadState).chunks.all
      (fun c => c.completed) = false) ∧
    uploadLoop (some toyBox) (fun _ _ => List.replicate 24 0) [1, 2, 3] 1000
        (fun _ _ => true) 3 ⟨some 1, none, [sampleChunk]⟩ =
      some (⟨some 1, none, [sampleChunk]⟩, 1, some .recursionError) :=
  ⟨rfl, rfl, rfl,
    uploadLoop_encrypted_session_raises (some toyBox)
      (fun _ _ => List.replicate 24 0) [1, 2, 3] 1000 (fun _ _ => true)
      ⟨some 1, none, [sampleChunk]⟩ rfl rfl rfl⟩

/-- `MultipartUpload.finalize()`: call the backend's
`complete_multipart_upload` and set `archive_id` iff the response checksum
equals the locally computed whole-file tree hash.  The tree hash is the
external `botocore.utils.calculate_tree_hash`, abstracted as the value
`totalChecksum`; `respChecksum` / `respArchiveId` abstract the backend
response.  The source checks neither `upload_id` nor chunk completion here. -/
def finalizeStep (totalChecksum : Nat) (respChecksum : Option Nat)
    (respArchiveId : Nat) (s : UploadState) : UploadState :=
  if respChecksum = some totalChecksum then { s with archiveId := some respArchiveId }
  else s

/-- **C4 (counterexample)** — `finalize` enforces no precondition: on a
session with `upload_id` unset and an incomplete chunk, a backend response
whose checksum matches the local tree hash still sets `archive_id`; both
"archive_id only after all chunks completed" and "finalize requires upload_id
set and all chunks completed" are false of the code. -/
theorem finalize_no_precondition_counterexample :
    (finalizeStep 7 (some 7) 42
      ⟨none, none, [⟨4, 0, 3, false, false⟩]⟩).archiveId = some 42 ∧
    (⟨none, none, [⟨4, 0, 3, false, false⟩]⟩ : UploadState).uploadId = none ∧
    ((⟨none, none, [⟨4, 0, 3, false, false⟩]⟩ : UploadState).chunks.all
      (fun c => c.completed)) = false := by
  refine ⟨?_, rfl, rfl⟩
  decide

/-- **C4 (amended)** — what `finalize` actually guarantees: `archive_id` is
set exactly when the backend's acknowledged checksum equals the locally
computed whole-file tree hash (left unchanged otherwise), and `finalize`
touches neither the chunk list nor `upload_id`; it checks no precondition on
`upload_id` or chunk completion.  In the orchestrated
`_upload_from_uploader` flow, all-chunks-completed before `finalize` is
guaranteed by `upload_loop`, not by `finalize` itself. -/
theorem finalizeStep_spec (totalChecksum : Nat) (respChecksum : Option Nat)
    (respArchiveId : Nat) (s : UploadState) :
    (finalizeStep totalChecksum respChecksum respArchiveId s).archiveId =
      (if respChecksum = some totalChecksum then some respArchiveId
       else s.archiveId) ∧
    (finalizeStep totalChecksum respChecksum respArchiveId s).chunks = s.chunks ∧
    (finalizeStep totalChecksum respChecksum respArchiveId s).uploadId =
      s.uploadId := by
  by_cases h : respChecksum = some totalChecksum
  · simp [finalizeStep, h]
  · simp [finalizeStep, h]

/-- A catalogued chunk row as the validator reads it: `start_offset` and
`size` (`datatypes.Chunk`). -/
structure StoredChunk where
  startOffset : Nat
  size : Nat
deriving DecidableEq

/-- The error kinds of the chunk-range validator. -/
inductive ChunkBoundaryError where
  | missingLeadingChunk
  | sizeMismatch
  | nonContiguousChunks
deriving DecidableEq

/-- Modelled from the spec: the symmetric difference of the set of
`start_offset` values and the set of `start_offset + size` (end) values of a
file's catalogued chunks — `File.verify_chunk_ranges` and
`ChunkBoundaryError` are exercised by `tests/test_datatypes.py` but their
definition is not part of the source tree. -/
def boundaryDiff (chunks : List StoredChunk) : Finset Nat :=
  symmDiff (chunks.map (fun c => c.startOffset)).toFinset
    (chunks.map (fun c => c.startOffset + c.size)).toFinset

/-- Modelled from the spec: `File.verify_chunk_ranges` — fail with
`MissingLeadingChunk` if `0` is absent from the symmetric difference,
`SizeMismatch` if `file_size` is absent, `NonContiguousChunks` if more than
two values remain; pass otherwise. -/
def verify_chunk_ranges (chunks : List StoredChunk) (fileSize : Nat) :
    Except ChunkBoundaryError Unit :=
  if 0 ∉ boundaryDiff chunks then .error .missingLeadingChunk
  else if fileSize ∉ boundaryDiff chunks then .error .sizeMismatch
  else if 2 < (boundaryDiff chunks).card then .error .nonContiguousChunks
  else .ok ()

/-- **C9 (counterexample)** — "passes exactly when the symmetric difference is
{0, file_size}" fails in the degenerate case `file_size = 0`: a single
catalogued chunk `(0, 7)` against file size 0 passes validation (the
difference {0, 7} contains 0 and `file_size` and has only two values) although
the difference is not `{0, 0}`. -/
theorem verify_chunk_ranges_counterexample :
    verify_chunk_ranges [⟨0, 7⟩] 0 = .ok () ∧
    boundaryDiff [⟨0, 7⟩] ≠ ({0, 0} : Finset Nat) := by
  have hd : boundaryDiff [⟨0, 7⟩] = ({0, 7} : Finset Nat) := by decide
  have hcard : ({0, 7} : Finset Nat).card = 2 := by decide
  constructor
  · unfold verify_chunk_ranges
    rw [hd, hcard]
    simp
  · decide

/-- **C9 (amended)** — the validator computes the symmetric difference of the
start-offset set and the end-offset (`start + size`) set and checks, in order:
`MissingLeadingChunk` when 0 is absent, `SizeMismatch` when `file_size` is
absent, `NonContiguousChunks` when more than two values remain; it passes
otherwise — which for `file_size ≠ 0` is exactly when the difference equals
`{0, file_size}` (for `file_size = 0` a larger two-element difference can also
pass). -/
theorem verify_chunk_ranges_spec (chunks : List StoredChunk) (fs : Nat) :
    (verify_chunk_ranges chunks fs = .ok () ↔
      (0 ∈ boundaryDiff chunks ∧ fs ∈ boundaryDiff chunks ∧
        (boundaryDiff chunks).card ≤ 2)) ∧
    (verify_chunk_ranges chunks fs = .error .missingLeadingChunk ↔
      0 ∉ boundaryDiff chunks) ∧
    (verify_chunk_ranges chunks fs = .error .sizeMismatch ↔
      (0 ∈ boundaryDiff chunks ∧ fs ∉ boundaryDiff chunks)) ∧
    (verify_chunk_ranges chunks fs = .error .nonContiguousChunks ↔
      (0 ∈ boundaryDiff chunks ∧ fs ∈ boundaryDiff chunks ∧
        2 < (boundaryDiff chunks).card)) ∧
    (fs ≠ 0 → (verify_chunk_ranges chunks fs = .ok () ↔
      boundaryDiff chunks = {0, fs})) := by
  have hok : verify_chunk_ranges chunks fs = .ok () ↔
      (0 ∈ boundaryDiff chunks ∧ fs ∈ boundaryDiff chunks ∧
        (boundaryDiff chunks).card ≤ 2) := by
    by_cases h0 : 0 ∈ boundaryDiff chunks <;>
      by_cases h1 : fs ∈ boundaryDiff chunks <;>
      by_cases h2 : 2 < (boundaryDiff chunks).card <;>
      simp [verify_chunk_ranges, h0, h1, h2] <;> omega
  refine ⟨hok, ?_, ?_, ?_, ?_⟩
  · by_cases h0 : 0 ∈ boundaryDiff chunks <;>
      by_cases h1 : fs ∈ boundaryDiff chunks <;>
      by_cases h2 : 2 < (boundaryDiff chunks).card <;>
      simp [verify_chunk_ranges, h0, h1, h2]
  · by_cases h0 : 0 ∈ boundaryDiff chunks <;>
      by_cases h1 : fs ∈ boundaryDiff chunks <;>
      by_cases h2 : 2 < (boundaryDiff chunks).card <;>
      simp [verify_chunk_ranges, h0, h1, h2]
  · by_cases h0 : 0 ∈ boundaryDiff chunks <;>
      by_cases h1 : fs ∈ boundaryDiff chunks <;>
      by_cases h2 : 2 < (boundaryDiff chunks).card <;>
      simp [verify_chunk_ranges, h0, h1, h2] <;> omega
  · intro hfs
    rw [hok]
    constructor
    · rintro ⟨h0, h1, h2⟩
      have hsub : ({0, fs} : Finset Nat) ⊆ boundaryDiff chunks := by
        rw [Finset.insert_subset_iff, Finset.singleton_subset_iff]
        exact ⟨h0, h1⟩
      have hcard : ({0, fs} : Finset Nat).card = 2 := by
        rw [Finset.card_insert_of_not_mem (by simp [Ne.symm hfs]),
          Finset.card_singleton]
      exact (Finset.eq_of_subset_of_card_le hsub (by omega)).symm
    · intro hd
      rw [hd]
      have hle := Finset.card_insert_le 0 ({fs} : Finset Nat)
      rw [Finset.card_singleton] at hle
      exact ⟨by simp, by simp, by omega⟩

theorem verify_chunk_ranges_spec_witness :
    (8 : Nat) ≠ 0 ∧ verify_chunk_ranges [⟨0, 5⟩, ⟨5, 3⟩] 8 = .ok () :=
  ⟨by decide,
    ((verify_chunk_ranges_spec [⟨0, 5⟩, ⟨5, 3⟩] 8).2.2.2.2 (by decide)).mpr
      (by decide)⟩
